import Mathlib

/-!
Verification of the fetch-and-extract pipeline of the Civ6 DLC installer
(`src/main.rs`).  The filesystem is modelled as a partial map from paths
(component lists) to nodes; the download loop, the 7z open step and the
per-entry extraction policy are translated from the source.  External
boundaries (HTTP stream, 7z container) are modelled as the data they
deliver: a declared content length plus a list of chunk results, and an
ordered entry list guarded by a password check.
-/

namespace Civ6

/-- A filesystem path, as its list of components. -/
abbrev Path := List String

/-- A filesystem node: a regular file with its bytes, or a directory. -/
inductive Node where
  | file (data : List Nat)
  | dir
deriving DecidableEq, Repr

/-- A filesystem: a partial map from paths to nodes. -/
abbrev FS := Path → Option Node

/-- The empty filesystem. -/
def FS.empty : FS := fun _ => none

/-- Write a node at a path. -/
def FS.set (fs : FS) (p : Path) (n : Node) : FS :=
  fun q => if q = p then some n else fs q

/-- Model of `Path::exists`. -/
def path_exists (fs : FS) (p : Path) : Bool := (fs p).isSome

/-- The protected extension of the skip rule (`"dll"` in the source). -/
def dll : String := "dll"

/-- Index of the last dot in a file-name component. -/
def lastDotIdx (cs : List Char) : Option Nat :=
  match cs.reverse.findIdx? (fun c => c == '.') with
  | none => none
  | some j => some (cs.length - 1 - j)

/-- Model of Rust `Path::extension`, applied to one file-name component:
`none` when there is no dot, when the name is `..`, or when the only dot
is leading; otherwise the portion after the final dot. -/
def rustExtension (s : String) : Option String :=
  if s = ".." then none
  else
    match lastDotIdx s.toList with
    | none => none
    | some 0 => none
    | some i => some (String.mk (s.toList.drop (i + 1)))

/-- Extension of a path: Rust `Path::extension` of its last component. -/
def pathExtension (p : Path) : Option String :=
  match p.getLast? with
  | none => none
  | some s => rustExtension s

/-- The error enum of the program (`enum Error` in the source; payloads
carried by the Rust variants are dropped). -/
inductive Error where
  | SteamNotFound
  | Civ6NotFound
  | Civ6NoParent
  | DownloadDlc
  | ContentLength
  | CreateFile
  | DownloadChunk
  | LengthDlc
  | Template
  | NoParent7z
  | ExtractDlc
  | Io
deriving DecidableEq, Repr

/-- `static ZIP_FILE: &str = "dlc.7z"`, as a relative path. -/
def ZIP_FILE : Path := ["dlc.7z"]

/-- `static DLC_URL` of the source. -/
def DLC_URL : String := "https://pixeldrain.com/api/file/Csbg5SqZ?download"

/-- `static PASSWORD` of the source. -/
def PASSWORD : Option String := some ("cs.rin.ru")

/-- `static DELETE_AFTER: bool = true`. -/
def DELETE_AFTER : Bool := true

/-- `path.parent()`: drop the last component; `none` on the empty path. -/
def parent? (p : Path) : Option Path :=
  match p with
  | [] => none
  | _ => some p.dropLast

/-- The nonempty prefixes of a path, shortest first: the directories that
`create_dir_all` walks. -/
def dirPrefixes (p : Path) : List Path :=
  p.inits.filter (fun q => !q.isEmpty)

/-- Walk a list of directory paths, creating the missing ones.  A path
already present as a file is an error (as for `std::fs::create_dir_all`). -/
def create_dir_all_go (fs : FS) : List Path → Except Error FS
  | [] => Except.ok fs
  | q :: qs =>
    match fs q with
    | some Node.dir => create_dir_all_go fs qs
    | some (Node.file _) => Except.error Error.Io
    | none => create_dir_all_go (fs.set q Node.dir) qs

/-- Model of `std::fs::create_dir_all`: create the directory and all its
missing ancestors. -/
def create_dir_all (fs : FS) (p : Path) : Except Error FS :=
  create_dir_all_go fs (dirPrefixes p)

/-- Model of `File::create`: truncate to an empty file; fails when the
path is an existing directory. -/
def file_create (fs : FS) (p : Path) : Except Error FS :=
  match fs p with
  | some Node.dir => Except.error Error.Io
  | _ => Except.ok (fs.set p (Node.file []))

/-- Append bytes to the file at `p` (model of `write_all` on an open
handle; the handle always points at an existing file). -/
def file_append (fs : FS) (p : Path) (blk : List Nat) : FS :=
  match fs p with
  | some (Node.file b) => fs.set p (Node.file (b ++ blk))
  | _ => fs

/-- Model of `std::fs::remove_file`. -/
def remove_file (fs : FS) (p : Path) : Except Error FS :=
  match fs p with
  | some (Node.file _) => Except.ok (fun q => if q = p then none else fs q)
  | _ => Except.error Error.Io

/-- One archive entry: its relative path, the directory flag, its decoded
bytes, and the stream/size metadata used for the progress denominator. -/
structure SzEntry where
  name : Path
  is_directory : Bool
  data : List Nat
  has_stream : Bool
  size : Nat

/-- The local 7z file as the downloader leaves it: the entries it decodes
to, the password it is encrypted with (if any), and a corruption flag. -/
structure SzFile where
  entries : List SzEntry
  requiredPassword : Option String
  corrupt : Bool

/-- `Password::from` / `Password::empty` of the source. -/
def pw_string (password : Option String) : String :=
  match password with
  | none => ""
  | some x => x

/-- Model of `SevenZReader::new`: opening fails on a corrupt archive or a
wrong password, before any entry is visited. -/
def sz_open (f : SzFile) (password : Option String) : Except Error (List SzEntry) :=
  if f.corrupt then Except.error Error.ExtractDlc
  else
    match f.requiredPassword with
    | none => Except.ok f.entries
    | some req =>
      if pw_string password = req then Except.ok f.entries
      else Except.error Error.ExtractDlc

/-- The denominator of the extraction progress bar: total size of the
entries that carry a stream. -/
def archive_size (entries : List SzEntry) : Nat :=
  ((entries.filter (fun e => e.has_stream)).map (fun e => e.size)).sum

/-- State threaded through the entry loop: the filesystem, the
`uncompressed_size` counter and the emitted progress positions. -/
structure ExtractState where
  fs : FS
  uncompressed : Nat
  progress : List Nat

/-- `path.extension().map(|x| x != "dll").unwrap_or(true)` of the source. -/
def ext_check (p : Path) : Bool :=
  ((pathExtension p).map (fun x => x != dll)).getD true

/-- The source's skip test:
`path.exists() && path.extension().map(|x| x != "dll").unwrap_or(true)`. -/
def skip_check (fs : FS) (p : Path) : Bool :=
  path_exists fs p && ext_check p

/-- The inner write loop of `extract_7z`: read the entry's bytes in
1024-byte blocks, append each block to the destination file, advance the
counter and emit a progress position per block.  `fuel` (instantiated to
`data.length`) makes the recursion structural; any fuel at least
`data.length` computes the same result. -/
def write_loop_go (p : Path) : Nat → FS → List Nat → Nat → List Nat → FS × Nat × List Nat
  | _, fs, [], unc, prog => (fs, unc, prog)
  | 0, fs, _, unc, prog => (fs, unc, prog)
  | fuel + 1, fs, d :: ds, unc, prog =>
    let blk := (d :: ds).take 1024
    let unc' := unc + blk.length
    write_loop_go p fuel (file_append fs p blk) ((d :: ds).drop 1024) unc' (prog ++ [unc'])

/-- The write loop at its entry point. -/
def write_loop (fs : FS) (p : Path) (data : List Nat) (unc : Nat) (prog : List Nat) : FS × Nat × List Nat :=
  write_loop_go p data.length fs data unc prog

/-- The progress positions the write loop emits for one entry starting at
counter `unc`. -/
def write_positions_go : Nat → List Nat → Nat → List Nat
  | _, [], _ => []
  | 0, _, _ => []
  | fuel + 1, d :: ds, unc =>
    (unc + ((d :: ds).take 1024).length) ::
      write_positions_go fuel ((d :: ds).drop 1024) (unc + ((d :: ds).take 1024).length)

/-- The progress positions of one entry. -/
def write_positions (data : List Nat) (unc : Nat) : List Nat :=
  write_positions_go data.length data unc

/-- The body of the `for_each_entries` closure of `extract_7z`: skip an
existing, non-protected destination; create directory entries; otherwise
create the parent chain and stream the entry's bytes into the file. -/
def process_entry (dest : Path) (st : ExtractState) (e : SzEntry) : Except Error ExtractState :=
  let path := dest ++ e.name
  if skip_check st.fs path then Except.ok st
  else if e.is_directory then
    match create_dir_all st.fs path with
    | Except.error err => Except.error err
    | Except.ok fs' => Except.ok ⟨fs', st.uncompressed, st.progress⟩
  else
    match parent? path with
    | none => Except.error Error.NoParent7z
    | some par =>
      match create_dir_all st.fs par with
      | Except.error err => Except.error err
      | Except.ok fs1 =>
        match file_create fs1 path with
        | Except.error err => Except.error err
        | Except.ok fs2 =>
          let r := write_loop fs2 path e.data st.uncompressed st.progress
          Except.ok ⟨r.1, r.2.1, r.2.2⟩

/-- The entry loop: process entries in archive order, stopping at the
first error. -/
def run_entries (dest : Path) : List SzEntry → ExtractState → ExtractState × Option Error
  | [], st => (st, none)
  | e :: es, st =>
    match process_entry dest st e with
    | Except.ok st' => run_entries dest es st'
    | Except.error err => (st, some err)

/-- `extract_7z`: open the archive (decode failure aborts with the
filesystem untouched), run the entry loop, then optionally delete the
local archive file.  `delete_after` models the build-time `DELETE_AFTER`
flag. -/
def extract_7z (f : SzFile) (password : Option String) (dest : Path) (delete_after : Bool) (fs : FS) : FS × Except Error Unit :=
  match sz_open f password with
  | Except.error err => (fs, Except.error err)
  | Except.ok entries =>
    match run_entries dest entries ⟨fs, 0, []⟩ with
    | (st, some err) => (st.fs, Except.error err)
    | (st, none) =>
      if delete_after then
        match remove_file st.fs ZIP_FILE with
        | Except.ok fs' => (fs', Except.ok ())
        | Except.error err => (st.fs, Except.error err)
      else (st.fs, Except.ok ())

/-- The HTTP response at the network boundary: the declared content
length, and the stream items (each a chunk or a transport error). -/
structure HttpResponse where
  content_length : Option Nat
  chunks : List (Except Unit (List Nat))

/-- The chunk loop of `download_file`: append each chunk to the file and
advance the counter to `min(downloaded + chunk.len(), total_size)`,
recording each position. -/
def download_loop (total : Nat) (p : Path) : List (Except Unit (List Nat)) → FS → Nat → List Nat → FS × Except Error (Nat × List Nat)
  | [], fs, downloaded, prog => (fs, Except.ok (downloaded, prog))
  | item :: rest, fs, downloaded, prog =>
    match item with
    | Except.error _ => (fs, Except.error Error.DownloadDlc)
    | Except.ok chunk =>
      let new := min (downloaded + chunk.length) total
      download_loop total p rest (file_append fs p chunk) new (prog ++ [new])

/-- `download_file`: require a content length, create the destination
file, then run the chunk loop.  On success it yields the final counter
and the progress positions. -/
def download_file (resp : HttpResponse) (p : Path) (fs : FS) : FS × Except Error (Nat × List Nat) :=
  match resp.content_length with
  | none => (fs, Except.error Error.ContentLength)
  | some total =>
    match file_create fs p with
    | Except.error _ => (fs, Except.error Error.CreateFile)
    | Except.ok fs1 => download_loop total p resp.chunks fs1 0 []

/-- Read the bytes of the file at `p` (empty for non-files). -/
def file_content (fs : FS) (p : Path) : List Nat :=
  match fs p with
  | some (Node.file c) => c
  | _ => []

/-- `download_dlc`: when a file already exists at `ZIP_FILE` it is opened
and returned without touching the network (the Bool records whether a
network request was made); otherwise `download_file` runs and the fresh
file is returned. -/
def download_dlc (resp : HttpResponse) (fs : FS) : (FS × Except Error (List Nat)) × Bool :=
  if (fs ZIP_FILE).isSome then
    match fs ZIP_FILE with
    | some (Node.file c) => ((fs, Except.ok c), false)
    | _ => ((fs, Except.error Error.Io), false)
  else
    match download_file resp ZIP_FILE fs with
    | (fs', Except.ok _) => ((fs', Except.ok (file_content fs' ZIP_FILE)), true)
    | (fs', Except.error err) => ((fs', Except.error err), true)

/-- The value of the `downloaded` counter after folding a list of chunks
from a start value, with the source's clamp at each step. -/
def downloaded_from (total d : Nat) (cs : List (List Nat)) : Nat :=
  cs.foldl (fun a c => min (a + c.length) total) d

/-- The counter after a whole chunk list, starting from 0. -/
def downloaded_after (total : Nat) (cs : List (List Nat)) : Nat :=
  downloaded_from total 0 cs

/-- The progress positions the chunk loop emits. -/
def download_positions (total d : Nat) : List (List Nat) → List Nat
  | [] => []
  | c :: cs =>
    (min (d + c.length) total) :: download_positions total (min (d + c.length) total) cs

/-! ### Concrete instances used to exercise the theorems -/

/-- An upper-case variant of the protected extension. -/
def dllUpper : String := "DLL"

/-- A tree holding a directory `a` and a text file `a/b.txt`. -/
def wFs1 : FS := fun q =>
  if q = ["a"] then some Node.dir
  else if q = ["a", "b.txt"] then some (Node.file [1, 2]) else none

/-- An archive file entry for `b.txt`. -/
def wEnt1 : SzEntry := ⟨["b.txt"], false, [9], true, 1⟩

/-- A tree holding a single stale library file `x.dll`. -/
def wFs2 : FS := fun q =>
  if q = ["x.dll"] then some (Node.file [5]) else none

/-- An archive file entry for `x.dll`. -/
def wEnt2 : SzEntry := ⟨["x.dll"], false, [9, 9], true, 2⟩

/-- A tree already holding the downloaded archive file. -/
def wFs3 : FS := fun q =>
  if q = ZIP_FILE then some (Node.file [7]) else none

/-- A response with no content length. -/
def wResp0 : HttpResponse := ⟨none, []⟩

/-- A response declaring 5 bytes but delivering only 3. -/
def wResp4 : HttpResponse := ⟨some 5, [Except.ok [7, 7, 7]]⟩

/-- A response declaring 3 bytes and delivering exactly 3. -/
def wResp4b : HttpResponse := ⟨some 3, [Except.ok [1, 2], Except.ok [3]]⟩

/-- A password that will not be supplied. -/
def wPw6 : String := "secret"

/-- An archive whose password does not match the supplied one. -/
def wFile6 : SzFile := ⟨[], some wPw6, false⟩

/-- A tree holding a plain file named `d`. -/
def wFs8 : FS := fun q =>
  if q = ["d"] then some (Node.file []) else none

/-- A directory entry whose destination `d` is occupied by that file. -/
def wEnt8 : SzEntry := ⟨["d"], true, [], false, 0⟩

/-- A directory entry for a fresh directory `sub`. -/
def wEnt8b : SzEntry := ⟨["sub"], true, [], false, 0⟩

/-- A tree holding files `x.DLL` and `noext`. -/
def wFs10 : FS := fun q =>
  if q = ["x.DLL"] then some (Node.file [3])
  else if q = ["noext"] then some (Node.file [4]) else none

/-- An archive file entry for `x.DLL`. -/
def wEnt10 : SzEntry := ⟨["x.DLL"], false, [1], true, 1⟩

/-- A one-entry archive used for the idempotence run. -/
def wFile9 : SzFile := ⟨[⟨["a.txt"], false, [1], true, 1⟩], none, false⟩

/-- The result of the first extraction run of `wFile9`. -/
def wRes9 : FS × Except Error Unit := extract_7z wFile9 none [] false FS.empty

/-! ### Filesystem lemmas -/

theorem FS.set_self (fs : FS) (p : Path) (n : Node) : fs.set p n p = some n := by
  simp [FS.set]

theorem FS.set_ne (fs : FS) (p q : Path) (n : Node) (h : q ≠ p) : fs.set p n q = fs q := by
  simp [FS.set, h]

theorem FS.set_set (fs : FS) (p : Path) (a b : Node) : (fs.set p a).set p b = fs.set p b := by
  funext q
  by_cases h : q = p <;> simp [FS.set, h]

theorem FS.set_same (fs : FS) (p : Path) (n : Node) (h : fs p = some n) : fs.set p n = fs := by
  funext q
  by_cases hq : q = p
  · rw [hq]; simp [FS.set, h]
  · simp [FS.set, hq]

/-! ### Skip-rule lemmas -/

theorem skip_check_true_iff (fs : FS) (p : Path) :
    skip_check fs p = true ↔ ((fs p).isSome = true ∧ ext_check p = true) := by
  simp [skip_check, path_exists, Bool.and_eq_true]

theorem ext_check_of_ne (p : Path) (h : pathExtension p ≠ some dll) : ext_check p = true := by
  unfold ext_check
  cases hpe : pathExtension p with
  | none => rfl
  | some s =>
    have hs : s ≠ dll := by
      intro hc
      exact h (by rw [hpe, hc])
    simp [hs]

theorem ext_check_dll (p : Path) (h : pathExtension p = some dll) : ext_check p = false := by
  simp [ext_check, h]

theorem process_entry_skip (dest : Path) (st : ExtractState) (e : SzEntry)
    (h : skip_check st.fs (dest ++ e.name) = true) :
    process_entry dest st e = Except.ok st := by
  unfold process_entry
  simp [h]

/-! ### create_dir_all lemmas -/

theorem create_dir_all_go_some (L : List Path) :
    ∀ (fs fs' : FS), create_dir_all_go fs L = Except.ok fs' →
      ∀ q, (fs q).isSome = true → (fs' q).isSome = true := by
  induction L with
  | nil =>
    intro fs fs' h q hq
    cases h
    exact hq
  | cons r rs ih =>
    intro fs fs' h q hq
    unfold create_dir_all_go at h
    cases hr : fs r with
    | none =>
      rw [hr] at h
      refine ih _ _ h q ?_
      by_cases hqr : q = r
      · simp [FS.set, hqr]
      · rw [FS.set_ne _ _ _ _ hqr]; exact hq
    | some n =>
      cases n with
      | dir => rw [hr] at h; exact ih _ _ h q hq
      | file d => rw [hr] at h; cases h

theorem create_dir_all_go_dir (L : List Path) :
    ∀ (fs fs' : FS), create_dir_all_go fs L = Except.ok fs' →
      ∀ q, fs q = some Node.dir → fs' q = some Node.dir := by
  induction L with
  | nil =>
    intro fs fs' h q hq
    cases h
    exact hq
  | cons r rs ih =>
    intro fs fs' h q hq
    unfold create_dir_all_go at h
    cases hr : fs r with
    | none =>
      rw [hr] at h
      refine ih _ _ h q ?_
      have hqr : q ≠ r := by
        intro hc
        rw [hc, hr] at hq
        cases hq
      rw [FS.set_ne _ _ _ _ hqr]; exact hq
    | some n =>
      cases n with
      | dir => rw [hr] at h; exact ih _ _ h q hq
      | file d => rw [hr] at h; cases h

theorem create_dir_all_go_file (L : List Path) :
    ∀ (fs fs' : FS), create_dir_all_go fs L = Except.ok fs' →
      ∀ q d, fs q = some (Node.file d) → fs' q = some (Node.file d) := by
  induction L with
  | nil =>
    intro fs fs' h q d hq
    cases h
    exact hq
  | cons r rs ih =>
    intro fs fs' h q d hq
    unfold create_dir_all_go at h
    cases hr : fs r with
    | none =>
      rw [hr] at h
      refine ih _ _ h q d ?_
      have hqr : q ≠ r := by
        intro hc
        rw [hc, hr] at hq
        cases hq
      rw [FS.set_ne _ _ _ _ hqr]; exact hq
    | some n =>
      cases n with
      | dir => rw [hr] at h; exact ih _ _ h q d hq
      | file b => rw [hr] at h; cases h

theorem create_dir_all_go_establishes (L : List Path) :
    ∀ (fs fs' : FS), create_dir_all_go fs L = Except.ok fs' →
      ∀ q ∈ L, fs' q = some Node.dir := by
  induction L with
  | nil =>
    intro fs fs' _ q hq
    cases hq
  | cons r rs ih =>
    intro fs fs' h q hq
    unfold create_dir_all_go at h
    cases hr : fs r with
    | none =>
      rw [hr] at h
      rcases List.mem_cons.mp hq with hq | hq
      · subst hq
        exact create_dir_all_go_dir rs _ _ h q (FS.set_self _ _ _)
      · exact ih _ _ h q hq
    | some n =>
      cases n with
      | dir =>
        rw [hr] at h
        rcases List.mem_cons.mp hq with hq | hq
        · subst hq
          exact create_dir_all_go_dir rs _ _ h q hr
        · exact ih _ _ h q hq
      | file d => rw [hr] at h; cases h

theorem create_dir_all_go_noop (L : List Path) :
    ∀ (fs : FS), (∀ q ∈ L, fs q = some Node.dir) →
      create_dir_all_go fs L = Except.ok fs := by
  induction L with
  | nil => intro fs _; rfl
  | cons r rs ih =>
    intro fs h
    unfold create_dir_all_go
    rw [h r (List.mem_cons_self _ _)]
    exact ih fs (fun q hq => h q (List.mem_cons_of_mem _ hq))

theorem create_dir_all_go_ok_of_no_file (L : List Path) :
    ∀ (fs : FS), (∀ q ∈ L, fs q = none ∨ fs q = some Node.dir) →
      ∃ fs', create_dir_all_go fs L = Except.ok fs' := by
  induction L with
  | nil => intro fs _; exact ⟨fs, rfl⟩
  | cons r rs ih =>
    intro fs h
    unfold create_dir_all_go
    rcases h r (List.mem_cons_self _ _) with hr | hr
    · rw [hr]
      refine ih _ ?_
      intro q hq
      by_cases hqr : q = r
      · right; simp [hqr, FS.set_self]
      · rw [FS.set_ne _ _ _ _ hqr]
        exact h q (List.mem_cons_of_mem _ hq)
    · rw [hr]
      exact ih fs (fun q hq => h q (List.mem_cons_of_mem _ hq))

theorem create_dir_all_noop (fs : FS) (p : Path)
    (h : ∀ q ∈ dirPrefixes p, fs q = some Node.dir) :
    create_dir_all fs p = Except.ok fs :=
  create_dir_all_go_noop _ fs h

theorem create_dir_all_establishes (fs fs' : FS) (p : Path)
    (h : create_dir_all fs p = Except.ok fs') :
    ∀ q ∈ dirPrefixes p, fs' q = some Node.dir :=
  create_dir_all_go_establishes _ fs fs' h

theorem file_create_ok (fs : FS) (p : Path) (h : fs p ≠ some Node.dir) :
    file_create fs p = Except.ok (fs.set p (Node.file [])) := by
  unfold file_create
  cases hf : fs p with
  | none => rfl
  | some n =>
    cases n with
    | dir => exact absurd hf h
    | file d => rfl

/-! ### Write-loop lemmas -/

theorem write_positions_go_congr :
    ∀ (f1 f2 : Nat) (data : List Nat) (unc : Nat), data.length ≤ f1 → data.length ≤ f2 →
      write_positions_go f1 data unc = write_positions_go f2 data unc := by
  intro f1
  induction f1 with
  | zero =>
    intro f2 data unc h1 _
    have hd : data = [] := List.length_eq_zero.mp (Nat.le_zero.mp h1)
    subst hd
    cases f2 <;> rfl
  | succ f1 ih =>
    intro f2 data unc h1 h2
    cases data with
    | nil => cases f2 <;> rfl
    | cons d ds =>
      cases f2 with
      | zero => simp at h2
      | succ f2 =>
        show (_ :: _) = (_ :: _)
        congr 1
        apply ih
        · rw [List.length_drop]
          simp only [List.length_cons] at h1 ⊢
          omega
        · rw [List.length_drop]
          simp only [List.length_cons] at h2 ⊢
          omega

theorem write_positions_cons (d : Nat) (ds : List Nat) (unc : Nat) :
    write_positions (d :: ds) unc =
      (unc + ((d :: ds).take 1024).length) ::
        write_positions ((d :: ds).drop 1024) (unc + ((d :: ds).take 1024).length) := by
  show write_positions_go ((d :: ds).length) (d :: ds) unc = _
  rw [List.length_cons]
  show (_ :: write_positions_go ds.length ((d :: ds).drop 1024) _) = _
  congr 1
  apply write_positions_go_congr
  · rw [List.length_drop]
    simp only [List.length_cons]
    omega
  · exact le_rfl

theorem write_loop_go_spec (p : Path) :
    ∀ (fuel : Nat) (data : List Nat), data.length ≤ fuel →
      ∀ (fs : FS) (unc : Nat) (prog : List Nat) (b : List Nat), fs p = some (Node.file b) →
        write_loop_go p fuel fs data unc prog =
          (fs.set p (Node.file (b ++ data)), unc + data.length, prog ++ write_positions data unc) := by
  intro fuel
  induction fuel with
  | zero =>
    intro data hlen fs unc prog b hb
    have hd : data = [] := List.length_eq_zero.mp (Nat.le_zero.mp hlen)
    subst hd
    show (fs, unc, prog) = _
    rw [List.append_nil, FS.set_same _ _ _ hb]
    simp [write_positions, write_positions_go]
  | succ fuel ih =>
    intro data hlen fs unc prog b hb
    cases data with
    | nil =>
      show (fs, unc, prog) = _
      rw [List.append_nil, FS.set_same _ _ _ hb]
      simp [write_positions, write_positions_go]
    | cons d ds =>
      show write_loop_go p fuel (file_append fs p ((d :: ds).take 1024)) ((d :: ds).drop 1024)
          (unc + ((d :: ds).take 1024).length) (prog ++ [unc + ((d :: ds).take 1024).length]) = _
      have happ : file_append fs p ((d :: ds).take 1024) =
          fs.set p (Node.file (b ++ (d :: ds).take 1024)) := by
        unfold file_append
        rw [hb]
      have hdlen : ((d :: ds).drop 1024).length ≤ fuel := by
        rw [List.length_drop]
        simp only [List.length_cons] at hlen ⊢
        omega
      rw [happ, ih ((d :: ds).drop 1024) hdlen _ _ _ _ (FS.set_self _ _ _), FS.set_set]
      rw [List.append_assoc b, List.take_append_drop]
      rw [write_positions_cons, List.append_assoc prog, List.singleton_append]
      have hl : ((d :: ds).take 1024).length + ((d :: ds).drop 1024).length = (d :: ds).length := by
        rw [List.length_take, List.length_drop]
        simp only [List.length_cons]
        omega
      rw [Nat.add_assoc, hl]

theorem write_loop_spec (fs : FS) (p : Path) (data : List Nat) (unc : Nat) (prog : List Nat)
    (b : List Nat) (hb : fs p = some (Node.file b)) :
    write_loop fs p data unc prog =
      (fs.set p (Node.file (b ++ data)), unc + data.length, prog ++ write_positions data unc) :=
  write_loop_go_spec p data.length data le_rfl fs unc prog b hb

/-! ### process_entry characterization -/

theorem parent?_of_ne_nil (p : Path) (h : p ≠ []) : parent? p = some p.dropLast := by
  cases p with
  | nil => exact absurd rfl h
  | cons a as => rfl

theorem process_entry_eq_dir (dest : Path) (st : ExtractState) (e : SzEntry) (fs' : FS)
    (hsk : skip_check st.fs (dest ++ e.name) = false)
    (hdir : e.is_directory = true)
    (hcd : create_dir_all st.fs (dest ++ e.name) = Except.ok fs') :
    process_entry dest st e = Except.ok ⟨fs', st.uncompressed, st.progress⟩ := by
  simp [process_entry, hsk, hdir, hcd]

theorem process_entry_eq_file (dest : Path) (st : ExtractState) (e : SzEntry) (par : Path) (fs1 : FS)
    (hsk : skip_check st.fs (dest ++ e.name) = false)
    (hdir : e.is_directory = false)
    (hpar : parent? (dest ++ e.name) = some par)
    (hcd : create_dir_all st.fs par = Except.ok fs1)
    (hnd : fs1 (dest ++ e.name) ≠ some Node.dir) :
    process_entry dest st e =
      Except.ok ⟨fs1.set (dest ++ e.name) (Node.file e.data),
        st.uncompressed + e.data.length,
        st.progress ++ write_positions e.data st.uncompressed⟩ := by
  have hfc := file_create_ok fs1 (dest ++ e.name) hnd
  have hwl := write_loop_spec (fs1.set (dest ++ e.name) (Node.file [])) (dest ++ e.name)
    e.data st.uncompressed st.progress [] (FS.set_self _ _ _)
  simp [process_entry, hsk, hdir, hpar, hcd, hfc, hwl, FS.set_set]

theorem process_entry_ok_cases (dest : Path) (st : ExtractState) (e : SzEntry) (st' : ExtractState)
    (h : process_entry dest st e = Except.ok st') :
    (skip_check st.fs (dest ++ e.name) = true ∧ st' = st) ∨
    (skip_check st.fs (dest ++ e.name) = false ∧ e.is_directory = true ∧
      create_dir_all st.fs (dest ++ e.name) = Except.ok st'.fs ∧
      st'.uncompressed = st.uncompressed ∧ st'.progress = st.progress) ∨
    (skip_check st.fs (dest ++ e.name) = false ∧ e.is_directory = false ∧
      ∃ par fs1, parent? (dest ++ e.name) = some par ∧
        create_dir_all st.fs par = Except.ok fs1 ∧
        fs1 (dest ++ e.name) ≠ some Node.dir ∧
        st'.fs = fs1.set (dest ++ e.name) (Node.file e.data)) := by
  by_cases hsk : skip_check st.fs (dest ++ e.name) = true
  · left
    refine ⟨hsk, ?_⟩
    rw [process_entry_skip dest st e hsk] at h
    exact (Except.ok.inj h).symm
  · have hsk' : skip_check st.fs (dest ++ e.name) = false := by simpa using hsk
    by_cases hdir : e.is_directory = true
    · cases hcd : create_dir_all st.fs (dest ++ e.name) with
      | error err =>
        have hpe : process_entry dest st e = Except.error err := by
          simp [process_entry, hsk', hdir, hcd]
        rw [hpe] at h
        cases h
      | ok fs' =>
        rw [process_entry_eq_dir dest st e fs' hsk' hdir hcd] at h
        have hst := Except.ok.inj h
        right; left
        refine ⟨hsk', hdir, ?_, ?_, ?_⟩
        · rw [← hst]
        · rw [← hst]
        · rw [← hst]
    · have hdir' : e.is_directory = false := by simpa using hdir
      cases hp : parent? (dest ++ e.name) with
      | none =>
        have hpe : process_entry dest st e = Except.error Error.NoParent7z := by
          simp [process_entry, hsk', hdir', hp]
        rw [hpe] at h
        cases h
      | some par =>
        cases hcd : create_dir_all st.fs par with
        | error err =>
          have hpe : process_entry dest st e = Except.error err := by
            simp [process_entry, hsk', hdir', hp, hcd]
          rw [hpe] at h
          cases h
        | ok fs1 =>
          by_cases hnd : fs1 (dest ++ e.name) = some Node.dir
          · have hpe : process_entry dest st e = Except.error Error.Io := by
              simp [process_entry, hsk', hdir', hp, hcd, file_create, hnd]
            rw [hpe] at h
            cases h
          · rw [process_entry_eq_file dest st e par fs1 hsk' hdir' hp hcd hnd] at h
            have hst := Except.ok.inj h
            right; right
            refine ⟨hsk', hdir', par, fs1, rfl, hcd, hnd, ?_⟩
            rw [← hst]

/-! ### Preservation facts for the entry loop -/

theorem parent?_inv (p par : Path) (h : parent? p = some par) : p ≠ [] ∧ par = p.dropLast := by
  cases p with
  | nil => cases h
  | cons a as =>
    refine ⟨by simp, ?_⟩
    exact (Option.some.inj h).symm

theorem dirPrefixes_length_le (q par : Path) (h : q ∈ dirPrefixes par) : q.length ≤ par.length := by
  have hq := (List.mem_filter.mp h).1
  exact (List.mem_inits _ _ |>.mp hq).length_le

theorem self_mem_dirPrefixes (p : Path) (h : p ≠ []) : p ∈ dirPrefixes p := by
  unfold dirPrefixes
  rw [List.mem_filter]
  refine ⟨(List.mem_inits _ _).mpr (List.prefix_refl p), ?_⟩
  cases p with
  | nil => exact absurd rfl h
  | cons a as => rfl

theorem process_entry_preserves (dest : Path) (st st' : ExtractState) (e : SzEntry)
    (h : process_entry dest st e = Except.ok st') :
    (∀ q, (st.fs q).isSome = true → (st'.fs q).isSome = true) ∧
    (∀ q, st.fs q = some Node.dir → st'.fs q = some Node.dir) ∧
    (∀ q, dest ++ e.name ≠ q → ∀ d, st.fs q = some (Node.file d) → st'.fs q = some (Node.file d)) := by
  rcases process_entry_ok_cases dest st e st' h with
    ⟨_, hstA⟩ | ⟨_, _, hcd, _, _⟩ | ⟨_, _, par, fs1, _, hcd, hnd, hfs⟩
  · subst hstA
    exact ⟨fun q hq => hq, fun q hq => hq, fun q _ d hq => hq⟩
  · refine ⟨?_, ?_, ?_⟩
    · intro q hq
      exact create_dir_all_go_some _ _ _ hcd q hq
    · intro q hq
      exact create_dir_all_go_dir _ _ _ hcd q hq
    · intro q _ d hq
      exact create_dir_all_go_file _ _ _ hcd q d hq
  · refine ⟨?_, ?_, ?_⟩
    · intro q hq
      rw [hfs]
      by_cases hqp : q = dest ++ e.name
      · subst hqp
        rw [FS.set_self]
        rfl
      · rw [FS.set_ne _ _ _ _ hqp]
        exact create_dir_all_go_some _ _ _ hcd q hq
    · intro q hq
      rw [hfs]
      have h1 : fs1 q = some Node.dir := create_dir_all_go_dir _ _ _ hcd q hq
      have hqp : q ≠ dest ++ e.name := by
        intro hc
        rw [hc] at h1
        exact hnd h1
      rw [FS.set_ne _ _ _ _ hqp]
      exact h1
    · intro q hqp d hq
      rw [hfs]
      rw [FS.set_ne _ _ _ _ (fun hc => hqp hc.symm)]
      exact create_dir_all_go_file _ _ _ hcd q d hq

theorem run_entries_preserves (dest : Path) :
    ∀ (es : List SzEntry) (st st₁ : ExtractState), run_entries dest es st = (st₁, none) →
      (∀ q, (st.fs q).isSome = true → (st₁.fs q).isSome = true) ∧
      (∀ q, st.fs q = some Node.dir → st₁.fs q = some Node.dir) ∧
      (∀ q, (∀ e ∈ es, dest ++ e.name ≠ q) → ∀ d,
        st.fs q = some (Node.file d) → st₁.fs q = some (Node.file d)) := by
  intro es
  induction es with
  | nil =>
    intro st st₁ h
    have h1 : st = st₁ := congrArg Prod.fst h
    subst h1
    exact ⟨fun q hq => hq, fun q hq => hq, fun q _ d hq => hq⟩
  | cons e es ih =>
    intro st st₁ h
    cases hpe : process_entry dest st e with
    | error err =>
      simp only [run_entries, hpe] at h
      simp at h
    | ok stA =>
      simp only [run_entries, hpe] at h
      obtain ⟨m1, d1, f1⟩ := process_entry_preserves dest st stA e hpe
      obtain ⟨m2, d2, f2⟩ := ih stA st₁ h
      refine ⟨fun q hq => m2 q (m1 q hq), fun q hq => d2 q (d1 q hq), ?_⟩
      intro q hne d hq
      have hq1 := f1 q (hne e (List.mem_cons_self _ _)) d hq
      exact f2 q (fun e' he' => hne e' (List.mem_cons_of_mem _ he')) d hq1

theorem run_entries_replay (dest : Path) :
    ∀ (es : List SzEntry) (st₀ st₁ : ExtractState),
      run_entries dest es st₀ = (st₁, none) →
      (es.map (fun e => dest ++ e.name)).Nodup →
      ∀ (u : Nat) (pr : List Nat), ∃ u' pr',
        run_entries dest es ⟨st₁.fs, u, pr⟩ = (⟨st₁.fs, u', pr'⟩, none) := by
  intro es
  induction es with
  | nil =>
    intro st₀ st₁ h _ u pr
    exact ⟨u, pr, rfl⟩
  | cons e es ih =>
    intro st₀ st₁ h hnd u pr
    cases hpe : process_entry dest st₀ e with
    | error err =>
      simp only [run_entries, hpe] at h
      simp at h
    | ok stA =>
      simp only [run_entries, hpe] at h
      rw [List.map_cons, List.nodup_cons] at hnd
      obtain ⟨hhead, htail⟩ := hnd
      obtain ⟨hmono, hdirp, hfilep⟩ := run_entries_preserves dest es stA st₁ h
      have hstep : ∃ u2 pr2,
          process_entry dest ⟨st₁.fs, u, pr⟩ e = Except.ok ⟨st₁.fs, u2, pr2⟩ := by
        rcases process_entry_ok_cases dest st₀ e stA hpe with
          ⟨hsk, hstA⟩ | ⟨hsk, hdir, hcd, _, _⟩ | ⟨hsk, hdir, par, fs1, hpar, hcd, hnd2, hfs⟩
        · obtain ⟨hex, hext⟩ := (skip_check_true_iff _ _).mp hsk
          have hexA : (stA.fs (dest ++ e.name)).isSome = true := by
            rw [hstA]
            exact hex
          refine ⟨u, pr, process_entry_skip _ _ _ ?_⟩
          exact (skip_check_true_iff _ _).mpr ⟨hmono _ hexA, hext⟩
        · have hdirs : ∀ q ∈ dirPrefixes (dest ++ e.name), st₁.fs q = some Node.dir := by
            intro q hq
            exact hdirp q (create_dir_all_establishes _ _ _ hcd q hq)
          by_cases hsk2 : skip_check st₁.fs (dest ++ e.name) = true
          · exact ⟨u, pr, process_entry_skip _ _ _ hsk2⟩
          · have hsk2' : skip_check st₁.fs (dest ++ e.name) = false := by simpa using hsk2
            exact ⟨u, pr,
              process_entry_eq_dir dest ⟨st₁.fs, u, pr⟩ e st₁.fs hsk2' hdir
                (create_dir_all_noop _ _ hdirs)⟩
        · obtain ⟨hpnil, hpdrop⟩ := parent?_inv _ _ hpar
          have hfile1 : st₁.fs (dest ++ e.name) = some (Node.file e.data) := by
            refine hfilep (dest ++ e.name) ?_ e.data ?_
            · intro e' he' hc
              exact hhead (List.mem_map.mpr ⟨e', he', hc⟩)
            · rw [hfs]
              exact FS.set_self _ _ _
          have hqp : ∀ q ∈ dirPrefixes par, q ≠ dest ++ e.name := by
            intro q hq hc
            have h1 := dirPrefixes_length_le q par hq
            rw [hpdrop, List.length_dropLast] at h1
            have h2 : 0 < (dest ++ e.name).length := List.length_pos.mpr hpnil
            rw [hc] at h1
            omega
          have hdirs : ∀ q ∈ dirPrefixes par, st₁.fs q = some Node.dir := by
            intro q hq
            apply hdirp
            rw [hfs, FS.set_ne _ _ _ _ (hqp q hq)]
            exact create_dir_all_establishes _ _ _ hcd q hq
          by_cases hsk2 : skip_check st₁.fs (dest ++ e.name) = true
          · exact ⟨u, pr, process_entry_skip _ _ _ hsk2⟩
          · have hsk2' : skip_check st₁.fs (dest ++ e.name) = false := by simpa using hsk2
            refine ⟨u + e.data.length, pr ++ write_positions e.data u, ?_⟩
            have hstep₀ := process_entry_eq_file dest ⟨st₁.fs, u, pr⟩ e par st₁.fs hsk2' hdir
              hpar (create_dir_all_noop _ _ hdirs)
              (by rw [hfile1]; intro hc; cases hc)
            rw [FS.set_same _ _ _ hfile1] at hstep₀
            exact hstep₀
      obtain ⟨u2, pr2, hstep⟩ := hstep
      obtain ⟨u3, pr3, hrest⟩ := ih stA st₁ h htail u2 pr2
      refine ⟨u3, pr3, ?_⟩
      simp only [run_entries, hstep]
      exact hrest

/-! ### Download-loop lemmas -/

theorem download_loop_snd (total : Nat) (p : Path) :
    ∀ (cs : List (List Nat)) (fs : FS) (d : Nat) (prog : List Nat),
      (download_loop total p (cs.map Except.ok) fs d prog).2 =
        Except.ok (downloaded_from total d cs, prog ++ download_positions total d cs) := by
  intro cs
  induction cs with
  | nil =>
    intro fs d prog
    simp [download_loop, downloaded_from, download_positions]
  | cons c cs ih =>
    intro fs d prog
    show (download_loop total p (Except.ok c :: cs.map Except.ok) fs d prog).2 = _
    have hstep : download_loop total p (Except.ok c :: cs.map Except.ok) fs d prog =
        download_loop total p (cs.map Except.ok) (file_append fs p c)
          (min (d + c.length) total) (prog ++ [min (d + c.length) total]) := rfl
    rw [hstep, ih]
    show Except.ok (downloaded_from total (min (d + c.length) total) cs, _) = _
    rw [List.append_assoc, List.singleton_append]
    rfl

theorem download_loop_fst (total : Nat) (p : Path) :
    ∀ (cs : List (List Nat)) (fs : FS) (d : Nat) (prog : List Nat) (b : List Nat),
      fs p = some (Node.file b) →
      (download_loop total p (cs.map Except.ok) fs d prog).1 p =
        some (Node.file (b ++ cs.flatten)) := by
  intro cs
  induction cs with
  | nil =>
    intro fs d prog b hb
    simp [download_loop, hb]
  | cons c cs ih =>
    intro fs d prog b hb
    show (download_loop total p (cs.map Except.ok) (file_append fs p c) _ _).1 p = _
    have happ : file_append fs p c = fs.set p (Node.file (b ++ c)) := by
      unfold file_append
      rw [hb]
    rw [happ, ih _ _ _ (b ++ c) (FS.set_self _ _ _)]
    rw [List.flatten_cons, ← List.append_assoc]

theorem downloaded_from_closed (total : Nat) :
    ∀ (cs : List (List Nat)) (d : Nat), d ≤ total →
      downloaded_from total d cs = min (d + (cs.map List.length).sum) total := by
  intro cs
  induction cs with
  | nil =>
    intro d hd
    simp [downloaded_from]
    omega
  | cons c cs ih =>
    intro d hd
    show downloaded_from total (min (d + c.length) total) cs = _
    rw [ih _ (min_le_right _ _)]
    simp only [List.map_cons, List.sum_cons]
    omega

/-! ### sz_open inversion -/

theorem sz_open_ok_entries (f : SzFile) (password : Option String) (es : List SzEntry)
    (h : sz_open f password = Except.ok es) : es = f.entries := by
  unfold sz_open at h
  by_cases hc : f.corrupt = true
  · rw [if_pos hc] at h
    cases h
  · rw [if_neg hc] at h
    cases hrp : f.requiredPassword with
    | none =>
      simp only [hrp] at h
      exact (Except.ok.inj h).symm
    | some req =>
      simp only [hrp] at h
      by_cases hpw : pw_string password = req
      · rw [if_pos hpw] at h
        exact (Except.ok.inj h).symm
      · rw [if_neg hpw] at h
        cases h

/-! ### Claim theorems -/

/-- Claim C1: an entry whose destination path already exists and whose
extension is not the protected `dll` extension is skipped entirely: the
whole extraction state (filesystem, counter, progress) is returned
unchanged, and the result does not depend on the entry's decoded bytes,
so no byte of the entry is read or written and the destination file is
byte-for-byte unchanged. -/
theorem C1_skip_is_noop (dest : Path) (st : ExtractState) (e : SzEntry)
    (hex : (st.fs (dest ++ e.name)).isSome = true)
    (hdll : pathExtension (dest ++ e.name) ≠ some dll) :
    process_entry dest st e = Except.ok st ∧
    ∀ d : List Nat,
      process_entry dest st ⟨e.name, e.is_directory, d, e.has_stream, e.size⟩ = Except.ok st := by
  have hsk : skip_check st.fs (dest ++ e.name) = true :=
    (skip_check_true_iff _ _).mpr ⟨hex, ext_check_of_ne _ hdll⟩
  exact ⟨process_entry_skip _ _ _ hsk,
    fun d => process_entry_skip dest st ⟨e.name, e.is_directory, d, e.has_stream, e.size⟩ hsk⟩

/-- Witness for C1: the existing text file `a/b.txt` is skipped and the
state is unchanged. -/
theorem C1_skip_is_noop_witness :
    (wFs1 (["a"] ++ wEnt1.name)).isSome = true ∧
    pathExtension (["a"] ++ wEnt1.name) ≠ some dll ∧
    process_entry ["a"] ⟨wFs1, 0, []⟩ wEnt1 = Except.ok ⟨wFs1, 0, []⟩ :=
  ⟨by decide, by decide,
    (C1_skip_is_noop ["a"] ⟨wFs1, 0, []⟩ wEnt1 (by decide) (by decide)).1⟩

/-- Claim C2: a file entry whose destination exists as a file and whose
extension is the protected `dll` extension is not skipped: the
destination is overwritten with the entry's decoded bytes (given that the
parent directories exist, as they do on a real filesystem holding the
destination file). -/
theorem C2_dll_overwritten (dest : Path) (st : ExtractState) (e : SzEntry) (c : List Nat)
    (hfile : st.fs (dest ++ e.name) = some (Node.file c))
    (hdll : pathExtension (dest ++ e.name) = some dll)
    (hdir : e.is_directory = false)
    (hanc : ∀ q ∈ dirPrefixes ((dest ++ e.name).dropLast), st.fs q = some Node.dir) :
    process_entry dest st e =
      Except.ok ⟨st.fs.set (dest ++ e.name) (Node.file e.data),
        st.uncompressed + e.data.length,
        st.progress ++ write_positions e.data st.uncompressed⟩ := by
  have hnil : dest ++ e.name ≠ [] := by
    intro hc
    rw [hc] at hdll
    exact absurd hdll (by decide)
  have hsk : skip_check st.fs (dest ++ e.name) = false := by
    unfold skip_check
    rw [ext_check_dll _ hdll]
    simp
  exact process_entry_eq_file dest st e ((dest ++ e.name).dropLast) st.fs hsk hdir
    (parent?_of_ne_nil _ hnil) (create_dir_all_noop _ _ hanc)
    (by rw [hfile]; intro hc; cases hc)

/-- Witness for C2: the existing `x.dll` is rewritten with the entry's
decoded bytes. -/
theorem C2_dll_overwritten_witness :
    wFs2 (([] : Path) ++ wEnt2.name) = some (Node.file [5]) ∧
    pathExtension (([] : Path) ++ wEnt2.name) = some dll ∧
    wEnt2.is_directory = false ∧
    process_entry [] ⟨wFs2, 0, []⟩ wEnt2 =
      Except.ok ⟨FS.set wFs2 (([] : Path) ++ wEnt2.name) (Node.file wEnt2.data),
        0 + wEnt2.data.length, [] ++ write_positions wEnt2.data 0⟩ :=
  ⟨by decide, by decide, rfl,
    C2_dll_overwritten [] ⟨wFs2, 0, []⟩ wEnt2 [5] (by decide) (by decide) rfl (by decide)⟩

/-- Claim C3: when a file already exists at the archive's destination
path, `download_dlc` makes no network request (the request flag is
`false`), writes nothing (the filesystem is returned unchanged) and
returns the pre-existing file's bytes unchanged. -/
theorem C3_presence_short_circuit (resp : HttpResponse) (fs : FS) (c : List Nat)
    (h : fs ZIP_FILE = some (Node.file c)) :
    download_dlc resp fs = ((fs, Except.ok c), false) := by
  unfold download_dlc
  simp [h]

/-- Witness for C3: a pre-existing `dlc.7z` is returned as is, with no
network request. -/
theorem C3_presence_short_circuit_witness :
    wFs3 ZIP_FILE = some (Node.file [7]) ∧
    download_dlc wResp0 wFs3 = ((wFs3, Except.ok [7]), false) :=
  ⟨by decide, C3_presence_short_circuit wResp0 wFs3 [7] (by decide)⟩

/-- Claim C5: when the response carries no content length,
`download_file` fails with the `ContentLength` error before creating the
destination file or writing any byte: the filesystem is returned
unchanged. -/
theorem C5_missing_content_length (resp : HttpResponse) (p : Path) (fs : FS)
    (h : resp.content_length = none) :
    download_file resp p fs = (fs, Except.error Error.ContentLength) := by
  unfold download_file
  rw [h]

/-- Witness for C5: a response without a content length fails and leaves
the empty filesystem untouched. -/
theorem C5_missing_content_length_witness :
    wResp0.content_length = none ∧
    download_file wResp0 ZIP_FILE FS.empty = (FS.empty, Except.error Error.ContentLength) :=
  ⟨rfl, C5_missing_content_length wResp0 ZIP_FILE FS.empty rfl⟩

/-- Claim C6: when the archive cannot be decoded at open time (wrong
password or corrupt archive), `extract_7z` fails with that decode error
before processing any entry, and the destination tree — the whole
filesystem — is returned untouched. -/
theorem C6_decode_error_untouched (f : SzFile) (password : Option String)
    (dest : Path) (delete_after : Bool) (fs : FS) (err : Error)
    (h : sz_open f password = Except.error err) :
    extract_7z f password dest delete_after fs = (fs, Except.error err) := by
  unfold extract_7z
  rw [h]

/-- Witness for C6: extraction of a password-protected archive without
the right password fails at open time and leaves the tree untouched. -/
theorem C6_decode_error_untouched_witness :
    sz_open wFile6 none = Except.error Error.ExtractDlc ∧
    extract_7z wFile6 none [] true FS.empty = (FS.empty, Except.error Error.ExtractDlc) :=
  ⟨rfl, C6_decode_error_untouched wFile6 none [] true FS.empty Error.ExtractDlc rfl⟩

/-- Claim C10: the protected-extension test is an exact byte-wise string
comparison against `dll`: an existing destination with no extension at
all, or with any other extension — including the case variant `DLL` — is
skipped, not overwritten. -/
theorem C10_exact_extension_match (dest : Path) (st : ExtractState) (e : SzEntry)
    (hex : (st.fs (dest ++ e.name)).isSome = true)
    (hcase : pathExtension (dest ++ e.name) = none ∨
      (∃ s, pathExtension (dest ++ e.name) = some s ∧ s ≠ dll)) :
    process_entry dest st e = Except.ok st := by
  have hdll : pathExtension (dest ++ e.name) ≠ some dll := by
    rcases hcase with hc | ⟨s, hs, hne⟩
    · rw [hc]
      intro hc2
      cases hc2
    · rw [hs]
      intro hc2
      exact hne (Option.some.inj hc2)
  exact process_entry_skip _ _ _
    ((skip_check_true_iff _ _).mpr ⟨hex, ext_check_of_ne _ hdll⟩)

/-- Witness for C10: an existing destination `x.DLL` — the upper-case
variant of the protected extension — is skipped. -/
theorem C10_exact_extension_match_witness :
    (wFs10 (([] : Path) ++ wEnt10.name)).isSome = true ∧
    pathExtension (([] : Path) ++ wEnt10.name) = some dllUpper ∧
    dllUpper ≠ dll ∧
    process_entry [] ⟨wFs10, 0, []⟩ wEnt10 = Except.ok ⟨wFs10, 0, []⟩ :=
  ⟨by decide, by decide, by decide,
    C10_exact_extension_match [] ⟨wFs10, 0, []⟩ wEnt10 (by decide)
      (Or.inr ⟨dllUpper, by decide, by decide⟩)⟩

/-- Claim C4 counterexample: a response declaring 5 bytes whose stream
delivers only 3 bytes is exhausted without error, yet the final counter
is 3 and the destination file holds 3 bytes — both different from the
declared total, so a successful download does not guarantee
`bytes_written = total_size`. -/
theorem C4_counterexample :
    wResp4.content_length = some 5 ∧
    (download_file wResp4 ZIP_FILE FS.empty).2 = Except.ok (3, [3]) ∧
    (download_file wResp4 ZIP_FILE FS.empty).1 ZIP_FILE = some (Node.file [7, 7, 7]) ∧
    (3 : Nat) ≠ 5 ∧ ([7, 7, 7] : List Nat).length ≠ 5 :=
  ⟨rfl, rfl, rfl, by decide, by decide⟩

/-- Claim C4 (amended): for every download whose chunk stream is
exhausted without error and delivers exactly `total_size` bytes in
total, the final counter equals `total_size` and the destination file's
length equals `total_size`. -/
theorem C4_success_exact_length (resp : HttpResponse) (p : Path) (fs : FS) (total : Nat)
    (cs : List (List Nat))
    (hlen : resp.content_length = some total)
    (hchunks : resp.chunks = cs.map Except.ok)
    (hsum : (cs.map List.length).sum = total)
    (hnd : fs p ≠ some Node.dir) :
    (download_file resp p fs).2 = Except.ok (total, download_positions total 0 cs) ∧
    (download_file resp p fs).1 p = some (Node.file cs.flatten) ∧
    cs.flatten.length = total := by
  have hjl : cs.flatten.length = total := by
    rw [List.length_flatten]
    exact hsum
  have hdf : download_file resp p fs =
      download_loop total p (cs.map Except.ok) (fs.set p (Node.file [])) 0 [] := by
    simp only [download_file, hlen, hchunks, file_create_ok _ _ hnd]
  refine ⟨?_, ?_, hjl⟩
  · rw [hdf, download_loop_snd]
    have hd : downloaded_from total 0 cs = total := by
      rw [downloaded_from_closed total cs 0 (Nat.zero_le _), Nat.zero_add, hsum]
      exact Nat.min_self total
    rw [hd, List.nil_append]
  · rw [hdf, download_loop_fst total p cs _ 0 [] [] (FS.set_self _ _ _), List.nil_append]

/-- Witness for the amended C4: a stream delivering exactly the declared
3 bytes ends with the counter at 3. -/
theorem C4_success_exact_length_witness :
    wResp4b.content_length = some 3 ∧
    wResp4b.chunks = ([[1, 2], [3]] : List (List Nat)).map Except.ok ∧
    (([[1, 2], [3]] : List (List Nat)).map List.length).sum = 3 ∧
    FS.empty ZIP_FILE ≠ some Node.dir ∧
    (download_file wResp4b ZIP_FILE FS.empty).2 =
      Except.ok (3, download_positions 3 0 [[1, 2], [3]]) :=
  ⟨rfl, rfl, by decide, by decide,
    (C4_success_exact_length wResp4b ZIP_FILE FS.empty 3 [[1, 2], [3]]
      rfl rfl (by decide) (by decide)).1⟩

/-- Claim C7: the `downloaded` counter of the chunk loop starts at 0, is
advanced after each chunk to `min(downloaded + chunk_len, total)`, is
monotonically nondecreasing, and never exceeds `total`; the chunk loop
returns exactly this counter together with the emitted positions. -/
theorem C7_counter_clamped_monotone (total : Nat) :
    downloaded_after total [] = 0 ∧
    (∀ (cs : List (List Nat)) (c : List Nat),
      downloaded_after total (cs ++ [c]) = min (downloaded_after total cs + c.length) total) ∧
    (∀ cs : List (List Nat), downloaded_after total cs ≤ total) ∧
    (∀ (cs : List (List Nat)) (c : List Nat),
      downloaded_after total cs ≤ downloaded_after total (cs ++ [c])) ∧
    (∀ (p : Path) (cs : List (List Nat)) (fs : FS) (d : Nat) (prog : List Nat),
      (download_loop total p (cs.map Except.ok) fs d prog).2 =
        Except.ok (downloaded_from total d cs, prog ++ download_positions total d cs)) := by
  have happ : ∀ (cs : List (List Nat)) (c : List Nat),
      downloaded_after total (cs ++ [c]) = min (downloaded_after total cs + c.length) total := by
    intro cs c
    unfold downloaded_after downloaded_from
    rw [List.foldl_append]
    rfl
  have hle : ∀ cs : List (List Nat), downloaded_after total cs ≤ total := by
    intro cs
    unfold downloaded_after
    rw [downloaded_from_closed total cs 0 (Nat.zero_le _)]
    exact min_le_right _ _
  refine ⟨rfl, happ, hle, ?_, ?_⟩
  · intro cs c
    rw [happ]
    have h := hle cs
    omega
  · intro p cs fs d prog
    exact download_loop_snd total p cs fs d prog

/-- Claim C8 counterexample: a directory entry whose destination exists
as a plain file is caught by the skip rule (a bare name has no
extension), so after extraction the destination is still that file and
no directory exists there — against the claim's "regardless of prior
state". -/
theorem C8_counterexample :
    wEnt8.is_directory = true ∧
    process_entry [] ⟨wFs8, 0, []⟩ wEnt8 = Except.ok ⟨wFs8, 0, []⟩ ∧
    wFs8 (([] : Path) ++ wEnt8.name) ≠ some Node.dir :=
  ⟨rfl, rfl, by decide⟩

/-- Claim C8 (amended): for every directory entry whose destination path
and its ancestors are not occupied by existing files, processing
succeeds, the destination directory exists afterward whether it was
previously present or absent, and no progress update is emitted (the
counter and the progress list are returned unchanged). -/
theorem C8_directory_created_no_progress (dest : Path) (st : ExtractState) (e : SzEntry)
    (hdir : e.is_directory = true)
    (hnofile : ∀ q ∈ dirPrefixes (dest ++ e.name), st.fs q = none ∨ st.fs q = some Node.dir) :
    ∃ fs', process_entry dest st e = Except.ok ⟨fs', st.uncompressed, st.progress⟩ ∧
      (dest ++ e.name ≠ [] → fs' (dest ++ e.name) = some Node.dir) := by
  by_cases hsk : skip_check st.fs (dest ++ e.name) = true
  · refine ⟨st.fs, ?_, ?_⟩
    · rw [process_entry_skip dest st e hsk]
    · intro hne
      obtain ⟨hex, _⟩ := (skip_check_true_iff _ _).mp hsk
      rcases hnofile _ (self_mem_dirPrefixes _ hne) with hq | hq
      · rw [hq] at hex
        cases hex
      · exact hq
  · have hsk' : skip_check st.fs (dest ++ e.name) = false := by simpa using hsk
    obtain ⟨fs', hcd⟩ :=
      create_dir_all_go_ok_of_no_file (dirPrefixes (dest ++ e.name)) st.fs hnofile
    refine ⟨fs', process_entry_eq_dir dest st e fs' hsk' hdir hcd, ?_⟩
    intro hne
    exact create_dir_all_go_establishes _ _ _ hcd _ (self_mem_dirPrefixes _ hne)

/-- Witness for the amended C8: a fresh directory entry `sub` is created
with no progress update. -/
theorem C8_directory_created_no_progress_witness :
    wEnt8b.is_directory = true ∧
    (∀ q ∈ dirPrefixes (([] : Path) ++ wEnt8b.name),
      FS.empty q = none ∨ FS.empty q = some Node.dir) ∧
    (∃ fs', process_entry [] ⟨FS.empty, 0, []⟩ wEnt8b = Except.ok ⟨fs', 0, []⟩ ∧
      (([] : Path) ++ wEnt8b.name ≠ [] → fs' (([] : Path) ++ wEnt8b.name) = some Node.dir)) :=
  ⟨rfl, by decide, C8_directory_created_no_progress [] ⟨FS.empty, 0, []⟩ wEnt8b rfl (by decide)⟩

/-- Claim C9: with cleanup disabled, extracting the same archive (with
pairwise-distinct entry destinations, as in a real archive index) a
second time over the tree produced by a successful first run succeeds
and produces exactly the same final tree: every entry now has an
existing destination, so non-`dll` entries are skipped and `dll` entries
are rewritten with the same bytes. -/
theorem C9_second_run_same_tree (f : SzFile) (password : Option String) (dest : Path)
    (fs fs₁ : FS)
    (h1 : extract_7z f password dest false fs = (fs₁, Except.ok ()))
    (hnd : (f.entries.map (fun e => dest ++ e.name)).Nodup) :
    extract_7z f password dest false fs₁ = (fs₁, Except.ok ()) := by
  cases hop : sz_open f password with
  | error err =>
    unfold extract_7z at h1
    rw [hop] at h1
    simp at h1
  | ok es =>
    have hes : es = f.entries := sz_open_ok_entries f password es hop
    simp only [extract_7z, hop] at h1 ⊢
    cases hrun : run_entries dest es ⟨fs, 0, []⟩ with
    | mk st ores =>
      rw [hrun] at h1
      cases ores with
      | some err => simp at h1
      | none =>
        have hfs : st.fs = fs₁ := by
          simpa using h1
        obtain ⟨u', pr', hrep⟩ :=
          run_entries_replay dest es ⟨fs, 0, []⟩ st hrun (by rw [hes]; exact hnd) 0 []
        rw [hfs] at hrep
        rw [hrep]
        rfl

/-- Witness for C9: a one-entry archive extracted twice from the empty
tree ends in the same tree both times. -/
theorem C9_second_run_same_tree_witness :
    extract_7z wFile9 none [] false FS.empty = (wRes9.1, Except.ok ()) ∧
    (wFile9.entries.map (fun e => ([] : Path) ++ e.name)).Nodup ∧
    extract_7z wFile9 none [] false wRes9.1 = (wRes9.1, Except.ok ()) :=
  ⟨rfl, by decide,
    C9_second_run_same_tree wFile9 none [] FS.empty wRes9.1 rfl (by decide)⟩

end Civ6
